import Mathlib

/-!
# Heimdall — Topology Synthesis & Routing Layer: verification development

Shallow embedding of the connectivity graph (`internal/topology`), the
topology builder and resource router (`internal/api/observer.go`), and the
status mapping, together with proofs of the specified properties.

The Go `map[string][]string` adjacency map is embedded as an association
list with at most one binding per key (`setEdges` replaces in place);
`lookupEdges` returns `[]` for a missing key, matching Go's nil-slice
lookup.  Byte payloads and `encoding/json` are abstracted by an explicit
parse function returning `Option`.
-/

namespace Heimdall

/-- A topology event, as decoded from a gossip payload
(`TopologyEvent` in `internal/topology/graph.go`). -/
structure TopologyEvent where
  node : String
  neighbors : List String
  deriving DecidableEq, Repr

/-- The connectivity graph: the `edges map[string][]string` field of
`Graph`, as an association list from node name to neighbor list. -/
abbrev Graph := List (String × List String)

/-- Go map lookup `g.edges[n]`: the bound neighbor list, or the nil slice
(embedded as `[]`) when the key is absent. -/
def lookupEdges (g : Graph) (n : String) : List String :=
  match g with
  | [] => []
  | e :: rest => if e.1 = n then e.2 else lookupEdges rest n

/-- Go map assignment `g.edges[n] = v`: replace the binding in place, or
add it when absent. -/
def setEdges (g : Graph) (n : String) (v : List String) : Graph :=
  match g with
  | [] => [(n, v)]
  | e :: rest => if e.1 = n then (n, v) :: rest else e :: setEdges rest n v

/-- The reverse-edge back-fill loop of `Graph.Update`: for each announced
neighbor, append `node` to that neighbor's list unless already present. -/
def backfill (node : String) (g : Graph) (nbs : List String) : Graph :=
  match nbs with
  | [] => g
  | nb :: rest =>
      let existing := lookupEdges g nb
      let g' := if node ∈ existing then g else setEdges g nb (existing ++ [node])
      backfill node g' rest

/-- `Graph.Update` after a successful JSON parse: store the announced
neighbor list wholesale (`g.edges[event.Node] = event.Neighbors`), then
back-fill reverse edges. -/
def Graph.updateParsed (g : Graph) (e : TopologyEvent) : Graph :=
  backfill e.node (setEdges g e.node e.neighbors) e.neighbors

/-- `Graph.Update(eventData []byte)`: parse the payload; on parse failure
log and return without touching the edge map (and without surfacing any
error — the Go method has no return value); otherwise apply the parsed
event.  `encoding/json` is abstracted by the `parseEvent` argument. -/
def Graph.Update (parseEvent : List UInt8 → Option TopologyEvent)
    (g : Graph) (eventData : List UInt8) : Graph :=
  match parseEvent eventData with
  | none => g
  | some e => Graph.updateParsed g e

/-- `Graph.GetNeighbors`: `make([]string, len(neighbors))` followed by
`copy` — an element-wise copy of the stored list (a fresh, non-nil slice;
`[]` for an unknown node). -/
def Graph.GetNeighbors (g : Graph) (node : String) : List String :=
  let neighbors := lookupEdges g node
  List.ofFn (fun i : Fin neighbors.length => neighbors.get i)

/-! ## BFS: `Graph.FindPath` -/

/-- The body of the `for _, neighbor := range g.edges[node]` loop of the
BFS in `Graph.FindPath`, scanned in slice order: return the completed path
as soon as the target is seen; otherwise mark each unvisited neighbor
visited and collect its extended path, in order, for the queue. -/
def stepNeighbors (tgt : String) (path : List String) :
    List String → List String → List (List String) →
      Sum (List String) (List String × List (List String))
  | [], visited, acc => Sum.inr (visited, acc)
  | nb :: rest, visited, acc =>
      if nb = tgt then Sum.inl (path ++ [nb])
      else if nb ∈ visited then stepNeighbors tgt path rest visited acc
      else stepNeighbors tgt path rest (nb :: visited) (acc ++ [path ++ [nb]])

/-- The BFS loop of `Graph.FindPath`: a queue of paths and a visited set,
popping from the front and appending extensions at the back.  The Go loop
needs no fuel (the visited set makes it terminate); here an explicit fuel
argument drives the recursion, with outer `none` marking exhaustion —
`bfsLoop_no_fuel_exhaustion` shows the fuel used by `FindPath` never runs
out, so the embedding computes exactly the Go loop. -/
def bfsLoop (g : Graph) (tgt : String) :
    Nat → List (List String) → List String → Option (Option (List String))
  | 0, _, _ => none
  | _ + 1, [], _ => some none
  | fuel + 1, path :: queue, visited =>
      match stepNeighbors tgt path (lookupEdges g (path.getLastD "")) visited [] with
      | Sum.inl found => some (some found)
      | Sum.inr (visited', newPaths) => bfsLoop g tgt fuel (queue ++ newPaths) visited'

/-- All node names occurring in the graph, as keys or as neighbors. -/
def graphNodes (g : Graph) : List String :=
  g.foldr (fun e acc => e.1 :: (e.2 ++ acc)) []

/-- `Graph.FindPath(from, to)`: the single-element path for `from == to`,
otherwise BFS from `[[from]]` with `visited = {from}`; `none` embeds the
Go `nil` no-path result. -/
def Graph.FindPath (g : Graph) (frm tgt : String) : Option (List String) :=
  if frm = tgt then some [frm]
  else (bfsLoop g tgt ((graphNodes g).length + 2) [[frm]] [frm]).getD none

/-- Each consecutive step of the list follows a recorded (directed) edge
of the graph. -/
def chainOk (g : Graph) (p : List String) : Prop :=
  List.Chain' (fun u v => v ∈ lookupEdges g u) p

instance (g : Graph) : DecidablePred (chainOk g) := fun _ => by
  unfold chainOk; infer_instance

/-- `p` is a path recorded in `g` from `x` to `y`: nonempty, starting at
`x`, ending at `y`, following recorded edges at every step. -/
def ValidFromTo (g : Graph) (x y : String) (p : List String) : Prop :=
  p.head? = some x ∧ p.getLast? = some y ∧ chainOk g p

instance (g : Graph) (x y : String) : DecidablePred (ValidFromTo g x y) := fun _ => by
  unfold ValidFromTo; infer_instance

/-- Number of graph nodes not yet visited: the quantity the BFS loop
strictly consumes, used to bound its iteration count. -/
def meas (g : Graph) (visited : List String) : Nat :=
  ((graphNodes g).toFinset \ visited.toFinset).card

/-- The loop invariant of the BFS in `Graph.FindPath`, relating the queue
of paths and the visited set to the source `a` and target `tgt`. -/
structure BfsInv (g : Graph) (a tgt : String)
    (queue : List (List String)) (visited : List String) : Prop where
  a_vis : a ∈ visited
  tgt_not_vis : tgt ∉ visited
  paths_ok : ∀ p ∈ queue, p ≠ [] ∧ p.head? = some a ∧ chainOk g p ∧
      ∀ x ∈ p, x ∈ visited
  sorted : List.Pairwise (fun p q => p.length ≤ q.length) queue
  window : ∀ p ∈ queue, ∀ q ∈ queue, p.length ≤ q.length + 1
  closed : ∀ x ∈ visited,
      (∃ p ∈ queue, p.getLastD "" = x) ∨ (∀ w ∈ lookupEdges g x, w ∈ visited)
  mini : ∀ Q, ValidFromTo g a tgt Q →
      ∃ p ∈ queue, ∃ S, ValidFromTo g (p.getLastD "") tgt S ∧
        p.length + S.length ≤ Q.length + 1

/-! ## Topology builder and status mapping (`internal/api/observer.go`) -/

/-- A mesh member as read from the membership collaborator
(`internal/serf.Member`). -/
structure Member where
  name : String
  addr : String
  port : Nat
  tags : List (String × String)
  status : String
  deriving DecidableEq, Repr

/-- A parsed entry of the structured `services` tag payload
(`ServiceInfo` in `internal/api/observer.go`). -/
structure ServiceInfo where
  name : String
  type : String
  address : String
  upstreams : List String
  deriving DecidableEq, Repr

/-- The coarse service status classification
(`observerv1.ServiceStatus`). -/
inductive ServiceStatus where
  | healthy
  | unhealthy
  | unknown
  deriving DecidableEq, Repr

/-- A logical service of a topology snapshot (`observerv1.Service`;
the lazily fetched resource set is not part of the snapshot). -/
structure Service where
  name : String
  type : String
  address : String
  nodeName : String
  upstreams : List String
  status : ServiceStatus
  tags : List (String × String)
  deriving DecidableEq, Repr

/-- A topology snapshot (`observerv1.Topology`). -/
structure Topology where
  services : List Service
  timestamp : Nat
  deriving DecidableEq, Repr

/-- Go map lookup `tags[k]` with presence flag (`v, ok := tags[k]`). -/
def lookupTag (tags : List (String × String)) (k : String) : Option String :=
  match tags with
  | [] => none
  | e :: rest => if e.1 = k then some e.2 else lookupTag rest k

/-- Go map lookup `tags[k]` without presence flag: the zero value `""`
when the key is absent. -/
def lookupTagD (tags : List (String × String)) (k : String) : String :=
  (lookupTag tags k).getD ""

/-- `mapStatus`: Serf liveness status string to coarse service status.
`serf.StatusAlive.String()` is `"alive"`, and likewise for the others. -/
def mapStatus (status : String) : ServiceStatus :=
  if status = "alive" then ServiceStatus.healthy
  else if status = "leaving" then ServiceStatus.unhealthy
  else if status = "left" then ServiceStatus.unhealthy
  else if status = "failed" then ServiceStatus.unhealthy
  else ServiceStatus.unknown

/-- The per-member body of the `buildTopology` loop: try the structured
`services` tag (on parse failure skip the member entirely); otherwise fall
back to the legacy `service_name`/`service_type` tag pair; a member with
neither contributes nothing.  `json.Unmarshal` of the structured payload
is abstracted by the `parseServices` argument. -/
def memberServices (parseServices : String → Option (List ServiceInfo))
    (m : Member) : List Service :=
  match lookupTag m.tags "services" with
  | some servicesJSON =>
      match parseServices servicesJSON with
      | none => []
      | some infos =>
          infos.map (fun info =>
            { name := info.name
              type := info.type
              address := info.address
              nodeName := m.name
              upstreams := info.upstreams
              status := mapStatus m.status
              tags := m.tags })
  | none =>
      if lookupTagD m.tags "service_type" ≠ "" then
        [{ name := lookupTagD m.tags "service_name"
           type := lookupTagD m.tags "service_type"
           address := m.addr
           nodeName := m.name
           upstreams := []
           status := mapStatus m.status
           tags := m.tags }]
      else []

/-- The service list produced by `buildTopology` over a membership
snapshot, in member order. -/
def buildServices (parseServices : String → Option (List ServiceInfo))
    (members : List Member) : List Service :=
  members.flatMap (memberServices parseServices)

/-- `buildTopology`: fresh snapshot over the current member list; the
timestamp is the build's wall-clock time, passed in explicitly here. -/
def buildTopology (parseServices : String → Option (List ServiceInfo))
    (members : List Member) (now : Nat) : Topology :=
  { services := buildServices parseServices members, timestamp := now }

/-! ## Resource router (`GetServiceResources`), up to the outbound call -/

/-- Outcome of the local (pre-network) phase of `GetServiceResources`:
the three early error returns, or the forwarded request data. -/
inductive RouteResult where
  | notFound (serviceName : String)
  | unavailable (nodeName : String)
  | invalidPath (path : List String)
  | noAddress (entryNode : String)
  | forward (entryAddr : String) (serviceName : String) (remainingPath : List String)
  deriving DecidableEq, Repr

/-- The Connect error codes used by the router. -/
inductive ErrCode where
  | notFound
  | unavailable
  | internal
  deriving DecidableEq, Repr

/-- The error code each outcome is surfaced with (`none` when the router
proceeds to the outbound call). -/
def RouteResult.code : RouteResult → Option ErrCode
  | .notFound _ => some ErrCode.notFound
  | .unavailable _ => some ErrCode.unavailable
  | .invalidPath _ => some ErrCode.internal
  | .noAddress _ => some ErrCode.internal
  | .forward _ _ _ => none

/-- First service with the requested name (the `for ... break` scan of
`topology.Services`). -/
def findService (services : List Service) (serviceName : String) : Option Service :=
  services.find? (fun svc => svc.name = serviceName)

/-- First service hosted on the given node, if any (the entry-address
scan; the address kept may be empty). -/
def findEntryService (services : List Service) (entryNode : String) : Option Service :=
  services.find? (fun svc => svc.nodeName = entryNode)

/-- The local phase of `ObserverService.GetServiceResources`: build a
fresh topology, resolve the service by exact name, compute a path from the
observer node `"heimdall"`, take the path's second element as entry node,
and resolve the entry address as the first service hosted there.  Error
returns mirror the Go code; `forward` carries the request data of the
outbound call (`path[1:]` with the observer stripped). -/
def GetServiceResources (parseServices : String → Option (List ServiceInfo))
    (members : List Member) (g : Graph) (serviceName : String) : RouteResult :=
  let services := buildServices parseServices members
  match findService services serviceName with
  | none => RouteResult.notFound serviceName
  | some targetService =>
      match Graph.FindPath g "heimdall" targetService.nodeName with
      | none => RouteResult.unavailable targetService.nodeName
      | some path =>
          if 1 < path.length then
            let entryNode := path.getD 1 ""
            let entryAddr := ((findEntryService services entryNode).map Service.address).getD ""
            if entryAddr = "" then RouteResult.noAddress entryNode
            else RouteResult.forward entryAddr serviceName (path.drop 1)
          else RouteResult.invalidPath path

/-! ## Concrete fixtures used by witnesses -/

/-- Fixture: a legacy-tagged member (`service_name`/`service_type`). -/
def legacyMember : Member :=
  { name := "n1", addr := "10.0.0.1:1", port := 0,
    tags := [("service_name", "api"), ("service_type", "http")],
    status := "alive" }

/-- Fixture: the service the topology builder derives from
`legacyMember`. -/
def legacyService : Service :=
  { name := "api", type := "http", address := "10.0.0.1:1", nodeName := "n1",
    upstreams := [], status := ServiceStatus.healthy,
    tags := [("service_name", "api"), ("service_type", "http")] }

/-- Fixture: a legacy-tagged member named like the observer node. -/
def heimdallMember : Member :=
  { name := "heimdall", addr := "127.0.0.1:1", port := 0,
    tags := [("service_name", "obs"), ("service_type", "http")],
    status := "alive" }

/-- Fixture: the service derived from `heimdallMember`. -/
def heimdallService : Service :=
  { name := "obs", type := "http", address := "127.0.0.1:1",
    nodeName := "heimdall", upstreams := [], status := ServiceStatus.healthy,
    tags := [("service_name", "obs"), ("service_type", "http")] }

/-- Fixture: a structured service entry with an empty address. -/
def infoNoAddr : ServiceInfo :=
  { name := "svc1", type := "db", address := "", upstreams := [] }

/-- Fixture: a structured service entry with a non-empty address. -/
def infoWithAddr : ServiceInfo :=
  { name := "svc2", type := "db", address := "10.0.0.2:2", upstreams := [] }

/-- Fixture: a parse function decoding the payload `"J"` to the two
structured entries above. -/
def parseJ : String → Option (List ServiceInfo) :=
  fun s => if s = "J" then some [infoNoAddr, infoWithAddr] else none

/-- Fixture: a member carrying the structured `services` tag `"J"`. -/
def structuredMember : Member :=
  { name := "n1", addr := "10.0.0.1:1", port := 0,
    tags := [("services", "J")], status := "alive" }

/-- Fixture: a graph linking the observer node to `"n1"`. -/
def linkGraph : Graph :=
  Graph.updateParsed [] ⟨"heimdall", ["n1"]⟩

/-! # Theorems -/

/-! ## Basic lemmas about the map embedding -/

theorem lookupEdges_setEdges_self (g : Graph) (n : String) (v : List String) :
    lookupEdges (setEdges g n v) n = v := by
  induction g with
  | nil => simp [setEdges, lookupEdges]
  | cons e rest ih =>
      by_cases h : e.1 = n
      · simp [setEdges, h, lookupEdges]
      · simp [setEdges, h, lookupEdges, ih]

theorem lookupEdges_setEdges_other (g : Graph) (n m : String) (v : List String)
    (hnm : m ≠ n) : lookupEdges (setEdges g n v) m = lookupEdges g m := by
  induction g with
  | nil => simp [setEdges, lookupEdges, Ne.symm hnm]
  | cons e rest ih =>
      by_cases h : e.1 = n
      · have hem : ¬ e.1 = m := by rw [h]; exact Ne.symm hnm
        simp [setEdges, h, lookupEdges, Ne.symm hnm, hem]
      · by_cases h2 : e.1 = m
        · simp [setEdges, h, lookupEdges, h2, hnm]
        · simp [setEdges, h, lookupEdges, h2, ih]

/-- During back-fill, an entry already containing `node` at any key is
never shrunk: membership of `node` is preserved. -/
theorem backfill_mono (node : String) (nbs : List String) (g : Graph)
    (x : String) (hx : node ∈ lookupEdges g x) :
    node ∈ lookupEdges (backfill node g nbs) x := by
  induction nbs generalizing g with
  | nil => simpa [backfill] using hx
  | cons nb rest ih =>
      simp only [backfill]
      by_cases hmem : node ∈ lookupEdges g nb
      · simpa [hmem] using ih g hx
      · simp only [hmem, if_false]
        apply ih
        by_cases hx2 : x = nb
        · subst hx2
          rw [lookupEdges_setEdges_self]
          exact List.mem_append_left _ hx
        · rwa [lookupEdges_setEdges_other _ _ _ _ hx2]

/-- Back-fill never changes the entry of the announcing node itself,
provided that whenever the node occurs among the neighbors its own entry
already contains it (true after the wholesale store). -/
theorem backfill_lookup_node (node : String) (nbs : List String) (g : Graph)
    (h : node ∈ nbs → node ∈ lookupEdges g node) :
    lookupEdges (backfill node g nbs) node = lookupEdges g node := by
  induction nbs generalizing g with
  | nil => simp [backfill]
  | cons nb rest ih =>
      simp only [backfill]
      by_cases heq : nb = node
      · have hm : node ∈ nb :: rest := by rw [← heq]; exact List.mem_cons_self nb rest
        have hself : node ∈ lookupEdges g nb := by rw [heq]; exact h hm
        simp only [hself, if_true]
        exact ih g (fun _ => heq ▸ hself)
      · by_cases hmem : node ∈ lookupEdges g nb
        · simp only [hmem, if_true]
          exact ih g (fun hn => h (List.mem_cons_of_mem _ hn))
        · simp only [hmem, if_false]
          rw [ih, lookupEdges_setEdges_other _ _ _ _ (Ne.symm heq)]
          intro hn
          rw [lookupEdges_setEdges_other _ _ _ _ (Ne.symm heq)]
          exact h (List.mem_cons_of_mem _ hn)

/-- After back-fill, every announced neighbor's entry contains the
announcing node. -/
theorem backfill_adds (node : String) (nbs : List String) (g : Graph)
    (b : String) (hb : b ∈ nbs) :
    node ∈ lookupEdges (backfill node g nbs) b := by
  induction nbs generalizing g with
  | nil => cases hb
  | cons nb rest ih =>
      simp only [backfill]
      rcases List.mem_cons.mp hb with hb1 | hb2
      · subst hb1
        by_cases hmem : node ∈ lookupEdges g b
        · simpa [hmem] using backfill_mono node rest g b hmem
        · simp only [hmem, if_false]
          apply backfill_mono
          rw [lookupEdges_setEdges_self]
          exact List.mem_append_right _ (List.mem_singleton.mpr rfl)
      · by_cases hmem : node ∈ lookupEdges g nb
        · simpa [hmem] using ih g hb2
        · simp only [hmem, if_false]
          exact ih _ hb2

/-! ## BFS lemmas -/

theorem getLastD_mem {p : List String} (d : String) (h : p ≠ []) :
    p.getLastD d ∈ p := by
  rw [List.getLastD_eq_getLast?, List.getLast?_eq_getLast _ h]
  exact List.getLast_mem h

theorem getLast?_eq_getLastD {p : List String} (h : p ≠ []) :
    p.getLast? = some (p.getLastD "") := by
  rw [List.getLastD_eq_getLast?, List.getLast?_eq_getLast _ h]
  rfl

theorem ValidFromTo_length_two {g : Graph} {x y : String} {S : List String}
    (h : ValidFromTo g x y S) (hxy : x ≠ y) : 2 ≤ S.length := by
  obtain ⟨h1, h2, _⟩ := h
  cases S with
  | nil => simp at h1
  | cons s t =>
      cases t with
      | nil =>
          simp at h1 h2
          exact absurd (h1.symm.trans h2) hxy
      | cons s2 t2 => simp [List.length]

theorem ValidFromTo_cons_decomp {g : Graph} {x y : String} {S : List String}
    (h : ValidFromTo g x y S) (hxy : x ≠ y) :
    ∃ z T, S = x :: z :: T ∧ z ∈ lookupEdges g x ∧ ValidFromTo g z y (z :: T) := by
  obtain ⟨h1, h2, h3⟩ := h
  cases S with
  | nil => simp at h1
  | cons s t =>
      have hsx : s = x := by simpa using h1
      subst hsx
      cases t with
      | nil => simp at h2; exact absurd (h2.symm ▸ hxy) (by simp [h2])
      | cons z T =>
          refine ⟨z, T, rfl, ?_, ?_, ?_, ?_⟩
          · exact (List.chain'_cons.mp h3).1
          · rfl
          · rwa [List.getLast?_cons_cons] at h2
          · exact (List.chain'_cons.mp h3).2

theorem mem_graphNodes_of_mem_entry (g : Graph) :
    ∀ e ∈ g, ∀ w ∈ e.2, w ∈ graphNodes g := by
  induction g with
  | nil => intro e he; cases he
  | cons f rest ih =>
      intro e he w hw
      show w ∈ f.1 :: (f.2 ++ graphNodes rest)
      rcases List.mem_cons.mp he with rfl | he2
      · exact List.mem_cons_of_mem _ (List.mem_append_left _ hw)
      · exact List.mem_cons_of_mem _ (List.mem_append_right _ (ih e he2 w hw))

theorem lookupEdges_subset_graphNodes (g : Graph) (n : String) :
    ∀ w ∈ lookupEdges g n, w ∈ graphNodes g := by
  induction g with
  | nil => intro w hw; simp [lookupEdges] at hw
  | cons e rest ih =>
      intro w hw
      simp only [lookupEdges] at hw
      show w ∈ e.1 :: (e.2 ++ graphNodes rest)
      by_cases h : e.1 = n
      · rw [if_pos h] at hw
        exact List.mem_cons_of_mem _ (List.mem_append_left _ hw)
      · rw [if_neg h] at hw
        exact List.mem_cons_of_mem _ (List.mem_append_right _ (ih w hw))

theorem meas_le_length (g : Graph) (visited : List String) :
    meas g visited ≤ (graphNodes g).length :=
  le_trans (Finset.card_le_card Finset.sdiff_subset) (List.toFinset_card_le _)

theorem meas_cons_add_one (g : Graph) {nb : String} {visited : List String}
    (hmem : nb ∈ graphNodes g) (hnot : nb ∉ visited) :
    meas g (nb :: visited) + 1 = meas g visited := by
  unfold meas
  rw [List.toFinset_cons, Finset.sdiff_insert]
  exact Finset.card_erase_add_one
    (Finset.mem_sdiff.mpr ⟨List.mem_toFinset.mpr hmem,
      fun hc => hnot (List.mem_toFinset.mp hc)⟩)

theorem pairwise_le_of_const (L : Nat) (l : List (List String))
    (h : ∀ q ∈ l, q.length = L) :
    List.Pairwise (fun p q => p.length ≤ q.length) l := by
  induction l with
  | nil => exact List.Pairwise.nil
  | cons a t ih =>
      refine List.pairwise_cons.mpr ⟨?_, ih (fun q hq => h q (List.mem_cons_of_mem _ hq))⟩
      intro q hq
      rw [h a (List.mem_cons_self a t), h q (List.mem_cons_of_mem _ hq)]

theorem stepNeighbors_inl (tgt : String) (path : List String) :
    ∀ (nbs visited : List String) (acc : List (List String)) (found : List String),
      stepNeighbors tgt path nbs visited acc = Sum.inl found →
      found = path ++ [tgt] ∧ tgt ∈ nbs := by
  intro nbs
  induction nbs with
  | nil => intro v acc f h; simp [stepNeighbors] at h
  | cons nb rest ih =>
      intro v acc f h
      simp only [stepNeighbors] at h
      by_cases h1 : nb = tgt
      · rw [if_pos h1] at h
        injection h with h
        subst h1
        exact ⟨h.symm, List.mem_cons_self nb rest⟩
      · rw [if_neg h1] at h
        by_cases h2 : nb ∈ v
        · rw [if_pos h2] at h
          obtain ⟨hf, hm⟩ := ih v acc f h
          exact ⟨hf, List.mem_cons_of_mem _ hm⟩
        · rw [if_neg h2] at h
          obtain ⟨hf, hm⟩ := ih _ _ f h
          exact ⟨hf, List.mem_cons_of_mem _ hm⟩

theorem stepNeighbors_inr (tgt : String) (path : List String) :
    ∀ (nbs visited : List String) (acc : List (List String))
      (visited' : List String) (acc' : List (List String)),
      stepNeighbors tgt path nbs visited acc = Sum.inr (visited', acc') →
      tgt ∉ nbs ∧
      (∀ x ∈ visited, x ∈ visited') ∧
      (∀ x ∈ visited', x ∈ visited ∨ x ∈ nbs) ∧
      (∀ w ∈ nbs, w ∈ visited') ∧
      (∃ news, acc' = acc ++ news ∧
        (∀ q ∈ news, ∃ nb, nb ∈ nbs ∧ nb ∈ visited' ∧ q = path ++ [nb]) ∧
        (∀ x ∈ visited', x ∉ visited → ∃ q ∈ news, q.getLastD "" = x)) := by
  intro nbs
  induction nbs with
  | nil =>
      intro v acc v' a' h
      simp only [stepNeighbors, Sum.inr.injEq, Prod.mk.injEq] at h
      obtain ⟨hv, ha⟩ := h
      subst hv; subst ha
      refine ⟨by simp, fun x hx => hx, fun x hx => Or.inl hx, by simp, [], by simp,
        by simp, ?_⟩
      intro x hx hnx
      exact absurd hx hnx
  | cons nb rest ih =>
      intro v acc v' a' h
      simp only [stepNeighbors] at h
      by_cases h1 : nb = tgt
      · rw [if_pos h1] at h; cases h
      · rw [if_neg h1] at h
        by_cases h2 : nb ∈ v
        · rw [if_pos h2] at h
          obtain ⟨hnt, hsub, hfrom, hall, news, hacc, hq, hnew⟩ := ih v acc v' a' h
          refine ⟨?_, hsub, ?_, ?_, news, hacc, ?_, hnew⟩
          · intro hc
            rcases List.mem_cons.mp hc with hc1 | hc2
            · exact h1 hc1.symm
            · exact hnt hc2
          · intro x hx
            rcases hfrom x hx with hx1 | hx2
            · exact Or.inl hx1
            · exact Or.inr (List.mem_cons_of_mem _ hx2)
          · intro w hw
            rcases List.mem_cons.mp hw with rfl | hw2
            · exact hsub w h2
            · exact hall w hw2
          · intro q hqm
            obtain ⟨nb', hn1, hn2, hn3⟩ := hq q hqm
            exact ⟨nb', List.mem_cons_of_mem _ hn1, hn2, hn3⟩
        · rw [if_neg h2] at h
          obtain ⟨hnt, hsub, hfrom, hall, news, hacc, hq, hnew⟩ :=
            ih (nb :: v) (acc ++ [path ++ [nb]]) v' a' h
          have hnbv' : nb ∈ v' := hsub nb (List.mem_cons_self nb v)
          refine ⟨?_, ?_, ?_, ?_, (path ++ [nb]) :: news, ?_, ?_, ?_⟩
          · intro hc
            rcases List.mem_cons.mp hc with hc1 | hc2
            · exact h1 hc1.symm
            · exact hnt hc2
          · intro x hx
            exact hsub x (List.mem_cons_of_mem _ hx)
          · intro x hx
            rcases hfrom x hx with hx1 | hx2
            · rcases List.mem_cons.mp hx1 with rfl | hx3
              · exact Or.inr (List.mem_cons_self x rest)
              · exact Or.inl hx3
            · exact Or.inr (List.mem_cons_of_mem _ hx2)
          · intro w hw
            rcases List.mem_cons.mp hw with rfl | hw2
            · exact hnbv'
            · exact hall w hw2
          · rw [hacc, List.append_assoc]
            rfl
          · intro q hqm
            rcases List.mem_cons.mp hqm with rfl | hqm2
            · exact ⟨nb, List.mem_cons_self nb rest, hnbv', rfl⟩
            · obtain ⟨nb', hn1, hn2, hn3⟩ := hq q hqm2
              exact ⟨nb', List.mem_cons_of_mem _ hn1, hn2, hn3⟩
          · intro x hx hnx
            by_cases hxnb : x = nb
            · subst hxnb
              exact ⟨path ++ [x], List.mem_cons_self _ _, List.getLastD_concat _ _ _⟩
            · have : x ∉ nb :: v := by
                intro hc
                rcases List.mem_cons.mp hc with hc1 | hc2
                · exact hxnb hc1
                · exact hnx hc2
              obtain ⟨q, hqm, hql⟩ := hnew x hx this
              exact ⟨q, List.mem_cons_of_mem _ hqm, hql⟩

theorem stepNeighbors_meas (g : Graph) (tgt : String) (path : List String) :
    ∀ (nbs visited : List String) (acc : List (List String))
      (visited' : List String) (acc' : List (List String)),
      (∀ w ∈ nbs, w ∈ graphNodes g) →
      stepNeighbors tgt path nbs visited acc = Sum.inr (visited', acc') →
      meas g visited' + acc'.length = meas g visited + acc.length := by
  intro nbs
  induction nbs with
  | nil =>
      intro v acc v' a' _ h
      simp only [stepNeighbors, Sum.inr.injEq, Prod.mk.injEq] at h
      obtain ⟨hv, ha⟩ := h
      subst hv; subst ha
      rfl
  | cons nb rest ih =>
      intro v acc v' a' hsub h
      simp only [stepNeighbors] at h
      by_cases h1 : nb = tgt
      · rw [if_pos h1] at h; cases h
      · rw [if_neg h1] at h
        by_cases h2 : nb ∈ v
        · rw [if_pos h2] at h
          exact ih v acc v' a' (fun w hw => hsub w (List.mem_cons_of_mem _ hw)) h
        · rw [if_neg h2] at h
          have hrec := ih (nb :: v) (acc ++ [path ++ [nb]]) v' a'
            (fun w hw => hsub w (List.mem_cons_of_mem _ hw)) h
          have hm := meas_cons_add_one g (hsub nb (List.mem_cons_self nb rest)) h2
          simp only [List.length_append, List.length_cons, List.length_nil] at hrec
          omega

/-- Frontier covering: from any visited node, a recorded path to the
target can be replaced by one starting at the endpoint of some queued
path, no longer than the original. -/
theorem frontier_descend (g : Graph) (tgt : String)
    (queue : List (List String)) (visited : List String)
    (hclosed : ∀ x ∈ visited, (∃ p ∈ queue, p.getLastD "" = x) ∨
        (∀ w ∈ lookupEdges g x, w ∈ visited))
    (htgt : tgt ∉ visited) :
    ∀ (T : List String) (x : String), ValidFromTo g x tgt T → x ∈ visited →
      ∃ p ∈ queue, ∃ S, ValidFromTo g (p.getLastD "") tgt S ∧
        S.length ≤ T.length := by
  intro T
  induction T with
  | nil =>
      intro x hT _
      obtain ⟨h1, _, _⟩ := hT
      simp at h1
  | cons s T2 ih =>
      intro x hT hx
      have hsx : s = x := by
        obtain ⟨h1, _, _⟩ := hT
        simpa using h1
      subst hsx
      rcases hclosed s hx with ⟨p, hp, hpl⟩ | hcl
      · exact ⟨p, hp, s :: T2, by rw [hpl]; exact hT, le_refl _⟩
      · have hne : s ≠ tgt := fun hc => htgt (hc ▸ hx)
        obtain ⟨z, T3, hEq, hz, hvalid⟩ := ValidFromTo_cons_decomp hT hne
        have hT2 : T2 = z :: T3 := by injection hEq
        obtain ⟨p, hp, S, hS, hlen⟩ := ih z (hT2 ▸ hvalid) (hcl z hz)
        exact ⟨p, hp, S, hS, le_trans hlen (by rw [hT2]; simp)⟩

/-- One BFS iteration that does not find the target preserves the loop
invariant. -/
theorem bfs_step_inv (g : Graph) (a tgt : String) (path : List String)
    (rest news : List (List String)) (visited visited' : List String)
    (hInv : BfsInv g a tgt (path :: rest) visited)
    (hstep : stepNeighbors tgt path (lookupEdges g (path.getLastD "")) visited []
        = Sum.inr (visited', news)) :
    BfsInv g a tgt (rest ++ news) visited' := by
  obtain ⟨hpne, hphead, hpchain, hpsub⟩ :=
    hInv.paths_ok path (List.mem_cons_self path rest)
  have hv_vis : path.getLastD "" ∈ visited := hpsub _ (getLastD_mem "" hpne)
  have hv_ne_tgt : path.getLastD "" ≠ tgt := fun hc => hInv.tgt_not_vis (hc ▸ hv_vis)
  obtain ⟨hnotin, hsub, hfrom, hall, news0, hacc, hq0, hnew0⟩ :=
    stepNeighbors_inr tgt path (lookupEdges g (path.getLastD "")) visited []
      visited' news hstep
  have hnews0 : news0 = news := by simpa using hacc.symm
  rw [hnews0] at hq0 hnew0
  have hq : ∀ q ∈ news, ∃ nb, nb ∈ lookupEdges g (path.getLastD "") ∧
      nb ∈ visited' ∧ q = path ++ [nb] := hq0
  have hnew : ∀ x ∈ visited', x ∉ visited → ∃ q ∈ news, q.getLastD "" = x := hnew0
  have htgt' : tgt ∉ visited' := by
    intro hc
    rcases hfrom tgt hc with h1 | h2
    · exact hInv.tgt_not_vis h1
    · exact hnotin h2
  have hnews_len : ∀ q ∈ news, q.length = path.length + 1 := by
    intro q hqm
    obtain ⟨nb, _, _, rfl⟩ := hq q hqm
    simp
  have hrest_le : ∀ q ∈ rest, q.length ≤ path.length + 1 := by
    intro q hqm
    exact hInv.window q (List.mem_cons_of_mem _ hqm) path (List.mem_cons_self _ _)
  have hrest_ge : ∀ q ∈ rest, path.length ≤ q.length :=
    (List.pairwise_cons.mp hInv.sorted).1
  have hclosed' : ∀ x ∈ visited',
      (∃ p ∈ rest ++ news, p.getLastD "" = x) ∨
      (∀ w ∈ lookupEdges g x, w ∈ visited') := by
    intro x hx
    by_cases hxold : x ∈ visited
    · rcases hInv.closed x hxold with ⟨p0, hp0, hp0l⟩ | hcl
      · rcases List.mem_cons.mp hp0 with rfl | h0rest
        · right
          intro w hw
          rw [← hp0l] at hw
          exact hall w hw
        · exact Or.inl ⟨p0, List.mem_append_left _ h0rest, hp0l⟩
      · right
        intro w hw
        exact hsub w (hcl w hw)
    · obtain ⟨q, hqm, hql⟩ := hnew x hx hxold
      exact Or.inl ⟨q, List.mem_append_right _ hqm, hql⟩
  refine ⟨hsub a hInv.a_vis, htgt', ?_, ?_, ?_, hclosed', ?_⟩
  · intro q hqm
    rcases List.mem_append.mp hqm with hqr | hqn
    · obtain ⟨h1, h2, h3, h4⟩ := hInv.paths_ok q (List.mem_cons_of_mem _ hqr)
      exact ⟨h1, h2, h3, fun x hx => hsub x (h4 x hx)⟩
    · obtain ⟨nb, hnb1, hnb2, rfl⟩ := hq q hqn
      refine ⟨by simp, ?_, ?_, ?_⟩
      · rw [List.head?_append_of_ne_nil _ hpne]
        exact hphead
      · refine List.chain'_append.mpr ⟨hpchain, List.chain'_singleton nb, ?_⟩
        intro x hx y hy
        rw [getLast?_eq_getLastD hpne] at hx
        simp only [Option.mem_def, Option.some.injEq, List.head?_cons] at hx hy
        subst hx
        subst hy
        exact hnb1
      · intro x hx
        rcases List.mem_append.mp hx with hx1 | hx2
        · exact hsub x (hpsub x hx1)
        · rw [List.mem_singleton.mp hx2]
          exact hnb2
  · refine List.pairwise_append.mpr
      ⟨(List.pairwise_cons.mp hInv.sorted).2,
       pairwise_le_of_const (path.length + 1) news hnews_len, ?_⟩
    intro p1 hp1 p2 hp2
    rw [hnews_len p2 hp2]
    exact hrest_le p1 hp1
  · intro p1 hp1 p2 hp2
    rcases List.mem_append.mp hp1 with h1 | h1 <;>
      rcases List.mem_append.mp hp2 with h2 | h2
    · exact hInv.window p1 (List.mem_cons_of_mem _ h1) p2 (List.mem_cons_of_mem _ h2)
    · rw [hnews_len p2 h2]
      exact le_trans (hrest_le p1 h1) (Nat.le_succ _)
    · rw [hnews_len p1 h1]
      exact Nat.succ_le_succ (hrest_ge p2 h2)
    · rw [hnews_len p1 h1, hnews_len p2 h2]
      exact Nat.le_succ _
  · intro Q hQ
    obtain ⟨p1, hp1, S, hS, hb⟩ := hInv.mini Q hQ
    rcases List.mem_cons.mp hp1 with rfl | hp1rest
    · obtain ⟨z, T3, hSeq, hz, hzvalid⟩ := ValidFromTo_cons_decomp hS hv_ne_tgt
      obtain ⟨p2, hp2, S2, hS2, hlen2⟩ :=
        frontier_descend g tgt (rest ++ news) visited' hclosed' htgt'
          (z :: T3) z hzvalid (hall z hz)
      refine ⟨p2, hp2, S2, hS2, ?_⟩
      have hp2len : p2.length ≤ p1.length + 1 := by
        rcases List.mem_append.mp hp2 with h2 | h2
        · exact hrest_le p2 h2
        · rw [hnews_len p2 h2]
      have hSlen : S.length = T3.length + 2 := by rw [hSeq]; simp
      simp only [List.length_cons] at hlen2
      omega
    · exact ⟨p1, List.mem_append_left _ hp1rest, S, hS, hb⟩

/-- From a state whose visited set is edge-closed and excludes the
target, no recorded path leads from a visited node to the target. -/
theorem no_path_of_all_closed (g : Graph) (tgt : String) (visited : List String)
    (hclosed : ∀ x ∈ visited, ∀ w ∈ lookupEdges g x, w ∈ visited)
    (htgt : tgt ∉ visited) :
    ∀ (T : List String) (x : String), x ∈ visited → ¬ ValidFromTo g x tgt T := by
  intro T
  induction T with
  | nil =>
      intro x _ hT
      obtain ⟨h1, _, _⟩ := hT
      simp at h1
  | cons s T2 ih =>
      intro x hx hT
      have hsx : s = x := by
        obtain ⟨h1, _, _⟩ := hT
        simpa using h1
      subst hsx
      have hne : s ≠ tgt := fun hc => htgt (hc ▸ hx)
      obtain ⟨z, T3, hEq, hz, hvalid⟩ := ValidFromTo_cons_decomp hT hne
      have hT2 : T2 = z :: T3 := by injection hEq
      exact ih z (hclosed s hx z hz) (hT2 ▸ hvalid)

/-- Full specification of the BFS loop under the invariant and a
sufficient fuel budget: the fuel never runs out; an empty-queue exit
means no recorded path from `a` to `tgt` exists; and a found path is a
recorded path from `a` to `tgt` of minimal length. -/
theorem bfsLoop_spec (g : Graph) (a tgt : String) :
    ∀ (fuel : Nat) (queue : List (List String)) (visited : List String),
      BfsInv g a tgt queue visited →
      queue.length + 1 + meas g visited ≤ fuel →
      bfsLoop g tgt fuel queue visited ≠ none ∧
      (bfsLoop g tgt fuel queue visited = some none →
        ∀ Q, ¬ ValidFromTo g a tgt Q) ∧
      (∀ p, bfsLoop g tgt fuel queue visited = some (some p) →
        ValidFromTo g a tgt p ∧
        ∀ Q, ValidFromTo g a tgt Q → p.length ≤ Q.length) := by
  intro fuel
  induction fuel with
  | zero =>
      intro queue visited _ hFuel
      exact absurd hFuel (by omega)
  | succ n ih =>
      intro queue visited hInv hFuel
      cases queue with
      | nil =>
          refine ⟨by simp [bfsLoop], ?_, ?_⟩
          · intro _ Q hQ
            have hcl : ∀ x ∈ visited, ∀ w ∈ lookupEdges g x, w ∈ visited := by
              intro x hx
              rcases hInv.closed x hx with ⟨p, hp, _⟩ | h
              · cases hp
              · exact h
            exact no_path_of_all_closed g tgt visited hcl hInv.tgt_not_vis
              Q a hInv.a_vis hQ
          · intro p hp
            simp [bfsLoop] at hp
      | cons path rest =>
          obtain ⟨hpne, hphead, hpchain, hpsub⟩ :=
            hInv.paths_ok path (List.mem_cons_self path rest)
          cases hstep : stepNeighbors tgt path
              (lookupEdges g (path.getLastD "")) visited [] with
          | inl found =>
              have hres : bfsLoop g tgt (n + 1) (path :: rest) visited =
                  some (some found) := by
                simp only [bfsLoop]
                rw [hstep]
              obtain ⟨hfound, htgt_mem⟩ :=
                stepNeighbors_inl tgt path (lookupEdges g (path.getLastD ""))
                  visited [] found hstep
              refine ⟨by simp [hres], by simp [hres], ?_⟩
              intro p hp
              rw [hres] at hp
              injection hp with hp
              injection hp with hp
              subst hp
              subst hfound
              constructor
              · refine ⟨?_, ?_, ?_⟩
                · rw [List.head?_append_of_ne_nil _ hpne]
                  exact hphead
                · exact List.getLast?_concat path
                · refine List.chain'_append.mpr
                    ⟨hpchain, List.chain'_singleton tgt, ?_⟩
                  intro x hx y hy
                  rw [getLast?_eq_getLastD hpne] at hx
                  simp only [Option.mem_def, Option.some.injEq,
                    List.head?_cons] at hx hy
                  subst hx
                  subst hy
                  exact htgt_mem
              · intro Q hQ
                obtain ⟨p1, hp1, S, hS, hb⟩ := hInv.mini Q hQ
                have hfront : path.length ≤ p1.length := by
                  rcases List.mem_cons.mp hp1 with rfl | h1
                  · exact le_refl _
                  · exact (List.pairwise_cons.mp hInv.sorted).1 p1 h1
                obtain ⟨h1ne, _, _, h1sub⟩ := hInv.paths_ok p1 hp1
                have hend_vis : p1.getLastD "" ∈ visited :=
                  h1sub _ (getLastD_mem "" h1ne)
                have hend_ne : p1.getLastD "" ≠ tgt :=
                  fun hc => hInv.tgt_not_vis (hc ▸ hend_vis)
                have hS2 : 2 ≤ S.length := ValidFromTo_length_two hS hend_ne
                simp only [List.length_append, List.length_cons,
                  List.length_nil]
                omega
          | inr pair =>
              obtain ⟨visited', news⟩ := pair
              have hres : bfsLoop g tgt (n + 1) (path :: rest) visited =
                  bfsLoop g tgt n (rest ++ news) visited' := by
                simp only [bfsLoop]
                rw [hstep]
              have hInv' := bfs_step_inv g a tgt path rest news visited visited'
                hInv hstep
              have hmeas := stepNeighbors_meas g tgt path
                (lookupEdges g (path.getLastD "")) visited [] visited' news
                (lookupEdges_subset_graphNodes g (path.getLastD "")) hstep
              have hFuel' : (rest ++ news).length + 1 + meas g visited' ≤ n := by
                simp only [List.length_append, List.length_cons,
                  List.length_nil] at hmeas hFuel ⊢
                omega
              rw [hres]
              exact ih (rest ++ news) visited' hInv' hFuel'

/-! ## Helper lemmas shared by claim theorems -/

/-- The stored entry of the announcing node right after `Graph.Update` is
exactly the announced neighbor list. -/
theorem updateParsed_node_entry (g : Graph) (e : TopologyEvent) :
    lookupEdges (Graph.updateParsed g e) e.node = e.neighbors := by
  unfold Graph.updateParsed
  rw [backfill_lookup_node, lookupEdges_setEdges_self]
  intro hn
  rw [lookupEdges_setEdges_self]
  exact hn

/-- Looking up a key bound by no entry yields the nil slice. -/
theorem lookupEdges_eq_nil (g : Graph) (n : String) (h : ∀ e ∈ g, e.1 ≠ n) :
    lookupEdges g n = [] := by
  induction g with
  | nil => rfl
  | cons e rest ih =>
      have he : ¬ e.1 = n := h e (List.mem_cons_self e rest)
      simp only [lookupEdges, he, if_false]
      exact ih (fun e' h' => h e' (List.mem_cons_of_mem _ h'))

/-- Every service produced for a member carries that member's name as
hosting node and that member's mapped status. -/
theorem memberServices_fields (parseServices : String → Option (List ServiceInfo))
    (m : Member) (s : Service) (hs : s ∈ memberServices parseServices m) :
    s.nodeName = m.name ∧ s.status = mapStatus m.status := by
  cases htag : lookupTag m.tags "services" with
  | some js =>
      cases hparse : parseServices js with
      | none => simp [memberServices, htag, hparse] at hs
      | some infos =>
          simp only [memberServices, htag, hparse] at hs
          rcases List.mem_map.mp hs with ⟨info, _, rfl⟩
          exact ⟨rfl, rfl⟩
  | none =>
      simp only [memberServices, htag] at hs
      split at hs
      · rcases List.mem_singleton.mp hs with rfl
        exact ⟨rfl, rfl⟩
      · cases hs

/-! ## Claim theorems -/

/-- C1 (counterexample): the symmetry invariant fails over sequences of
well-formed updates.  After `Update("a", ["b"])` followed by
`Update("a", [])`, the entry of `"b"` still lists `"a"` (the back-filled
reverse edge) while the entry of `"a"` was overwritten to `[]`, so the
adjacency map is asymmetric. -/
theorem update_symmetry_counterexample :
    "a" ∈ lookupEdges
        (Graph.updateParsed (Graph.updateParsed [] ⟨"a", ["b"]⟩) ⟨"a", []⟩) "b" ∧
    "b" ∉ lookupEdges
        (Graph.updateParsed (Graph.updateParsed [] ⟨"a", ["b"]⟩) ⟨"a", []⟩) "a" := by
  decide

/-- C1 (amended): immediately after a single `Graph.Update` whose payload
parses to node `n` with neighbor list `nbs`, both the forward and the
reverse edge of every announced neighbor exist: for every `b ∈ nbs`,
`b` is in `n`'s entry and `n` is in `b`'s entry.  (Symmetry after an
arbitrary update sequence does not hold: a later update overwrites the
node's entry wholesale and may drop previously back-filled reverse
edges.) -/
theorem update_announced_edges_bidirectional (g : Graph) (e : TopologyEvent)
    (b : String) (hb : b ∈ e.neighbors) :
    b ∈ lookupEdges (Graph.updateParsed g e) e.node ∧
    e.node ∈ lookupEdges (Graph.updateParsed g e) b := by
  constructor
  · rw [updateParsed_node_entry]
    exact hb
  · exact backfill_adds _ _ _ _ hb

/-- Witness for C1 (amended) at the concrete update `("a", ["b"])` on the
empty graph. -/
theorem update_announced_edges_bidirectional_witness :
    "b" ∈ (⟨"a", ["b"]⟩ : TopologyEvent).neighbors ∧
    ("b" ∈ lookupEdges (Graph.updateParsed [] ⟨"a", ["b"]⟩) "a" ∧
     "a" ∈ lookupEdges (Graph.updateParsed [] ⟨"a", ["b"]⟩) "b") :=
  ⟨by decide, update_announced_edges_bidirectional [] ⟨"a", ["b"]⟩ "b" (by decide)⟩

/-- C4: for every payload that does not parse as a topology event,
`Graph.Update` leaves the edge map exactly unchanged; the method has no
error result to surface (it returns only the graph), and the parsed-`none`
branch returns before touching any entry. -/
theorem Update_malformed_is_noop (parseEvent : List UInt8 → Option TopologyEvent)
    (g : Graph) (eventData : List UInt8) (h : parseEvent eventData = none) :
    Graph.Update parseEvent g eventData = g := by
  simp [Graph.Update, h]

/-- Witness for C4: a concrete malformed payload under a parse function
rejecting everything leaves a concrete graph unchanged. -/
theorem Update_malformed_is_noop_witness :
    (fun _ : List UInt8 => (none : Option TopologyEvent)) [] = none ∧
    Graph.Update (fun _ => none) [("a", ["b"])] [] = [("a", ["b"])] :=
  ⟨rfl, Update_malformed_is_noop (fun _ => none) [("a", ["b"])] [] rfl⟩

/-- C5: the service list built from a fixed membership snapshot is a pure
function of that snapshot — two builds differ only in the timestamp, and
the services agree in order and in every field. -/
theorem buildTopology_deterministic
    (parseServices : String → Option (List ServiceInfo)) (members : List Member)
    (t1 t2 : Nat) :
    (buildTopology parseServices members t1).services =
      (buildTopology parseServices members t2).services ∧
    (buildTopology parseServices members t1).timestamp = t1 ∧
    (buildTopology parseServices members t2).timestamp = t2 :=
  ⟨rfl, rfl, rfl⟩

/-- C6: `FindPath(x, x)` is the single-element path `[x]` for every node
name and every graph state, including the empty graph and graphs in which
`x` never appears. -/
theorem FindPath_self (g : Graph) (x : String) :
    Graph.FindPath g x x = some [x] := by
  simp [Graph.FindPath]

/-- C7: every service derived from a membership record carries the
hosting member's node name, and its status is the member's liveness
status mapped by `mapStatus`: alive to healthy; leaving, left, failed to
unhealthy; anything else to unknown. -/
theorem service_status_classification
    (parseServices : String → Option (List ServiceInfo)) (members : List Member)
    (s : Service) (hs : s ∈ buildServices parseServices members) :
    ∃ m, m ∈ members ∧ s.nodeName = m.name ∧ s.status = mapStatus m.status ∧
      (m.status = "alive" → s.status = ServiceStatus.healthy) ∧
      ((m.status = "leaving" ∨ m.status = "left" ∨ m.status = "failed") →
        s.status = ServiceStatus.unhealthy) ∧
      (m.status ≠ "alive" → m.status ≠ "leaving" → m.status ≠ "left" →
        m.status ≠ "failed" → s.status = ServiceStatus.unknown) := by
  rcases List.mem_flatMap.mp hs with ⟨m, hm, hsm⟩
  rcases memberServices_fields parseServices m s hsm with ⟨hname, hstatus⟩
  refine ⟨m, hm, hname, hstatus, ?_, ?_, ?_⟩
  · intro h; rw [hstatus]; simp [mapStatus, h]
  · rintro (h | h | h) <;> rw [hstatus] <;> simp [mapStatus, h]
  · intro h1 h2 h3 h4; rw [hstatus]; simp [mapStatus, h1, h2, h3, h4]

/-- Witness for C7 at a concrete legacy-tagged member. -/
theorem service_status_classification_witness :
    legacyService ∈ buildServices (fun _ => none) [legacyMember] ∧
    (∃ m, m ∈ [legacyMember] ∧ legacyService.nodeName = m.name ∧
      legacyService.status = mapStatus m.status ∧
      (m.status = "alive" → legacyService.status = ServiceStatus.healthy) ∧
      ((m.status = "leaving" ∨ m.status = "left" ∨ m.status = "failed") →
        legacyService.status = ServiceStatus.unhealthy) ∧
      (m.status ≠ "alive" → m.status ≠ "leaving" → m.status ≠ "left" →
        m.status ≠ "failed" → legacyService.status = ServiceStatus.unknown)) :=
  ⟨by decide,
    service_status_classification (fun _ => none) [legacyMember] legacyService
      (by decide)⟩

/-- C8: `GetNeighbors` returns the stored neighbor list's contents
(modelled as the element-wise copy the Go `make`/`copy` performs, always a
proper list rather than a nil slice), and the empty list for a node with
no entry; in the pure embedding the returned value shares no state with
the graph. -/
theorem GetNeighbors_copy_spec (g : Graph) (node : String) :
    Graph.GetNeighbors g node = lookupEdges g node ∧
    ((∀ e ∈ g, e.1 ≠ node) → Graph.GetNeighbors g node = []) := by
  have h1 : Graph.GetNeighbors g node = lookupEdges g node :=
    List.ofFn_get (lookupEdges g node)
  refine ⟨h1, fun h => ?_⟩
  rw [h1, lookupEdges_eq_nil g node h]

/-- Witness for C8 at a node absent from a concrete graph. -/
theorem GetNeighbors_copy_spec_witness :
    (∀ e ∈ ([("a", ["b"])] : Graph), e.1 ≠ "z") ∧
    (Graph.GetNeighbors [("a", ["b"])] "z" = lookupEdges [("a", ["b"])] "z" ∧
      ((∀ e ∈ ([("a", ["b"])] : Graph), e.1 ≠ "z") →
        Graph.GetNeighbors [("a", ["b"])] "z" = [])) :=
  ⟨by decide, GetNeighbors_copy_spec [("a", ["b"])] "z"⟩

/-- C9: `Graph.Update` is last-write-wins for the announcing node: after a
parsed update `(n, nbs)` the stored entry for `n` is exactly `nbs`, so any
earlier neighbor of `n` (including back-filled reverse edges) not in `nbs`
is gone from `n`'s entry. -/
theorem updateParsed_last_write_wins (g : Graph) (e : TopologyEvent) :
    lookupEdges (Graph.updateParsed g e) e.node = e.neighbors :=
  updateParsed_node_entry g e

/-- C3: the three early failures of `GetServiceResources`.  When no
service of the freshly built topology bears the requested name the call
fails with `NotFound`; when the (first) matching service exists but
`FindPath` from the observer node `"heimdall"` to its hosting node is the
no-path result the call fails with `Unavailable`; when the returned path
has exactly one element the call fails with `Internal`. -/
theorem GetServiceResources_error_codes
    (parseServices : String → Option (List ServiceInfo)) (members : List Member)
    (g : Graph) (serviceName : String) :
    ((∀ svc ∈ buildServices parseServices members, svc.name ≠ serviceName) →
      GetServiceResources parseServices members g serviceName =
          RouteResult.notFound serviceName ∧
      (GetServiceResources parseServices members g serviceName).code =
          some ErrCode.notFound) ∧
    (∀ t, findService (buildServices parseServices members) serviceName = some t →
      Graph.FindPath g "heimdall" t.nodeName = none →
      GetServiceResources parseServices members g serviceName =
          RouteResult.unavailable t.nodeName ∧
      (GetServiceResources parseServices members g serviceName).code =
          some ErrCode.unavailable) ∧
    (∀ t p, findService (buildServices parseServices members) serviceName = some t →
      Graph.FindPath g "heimdall" t.nodeName = some p →
      p.length = 1 →
      GetServiceResources parseServices members g serviceName =
          RouteResult.invalidPath p ∧
      (GetServiceResources parseServices members g serviceName).code =
          some ErrCode.internal) := by
  refine ⟨?_, ?_, ?_⟩
  · intro h
    have hfind : findService (buildServices parseServices members) serviceName = none := by
      unfold findService
      rw [List.find?_eq_none]
      intro svc hsvc
      simpa using h svc hsvc
    have hres : GetServiceResources parseServices members g serviceName =
        RouteResult.notFound serviceName := by
      simp only [GetServiceResources, hfind]
    exact ⟨hres, by rw [hres]; rfl⟩
  · intro t ht hpath
    have hres : GetServiceResources parseServices members g serviceName =
        RouteResult.unavailable t.nodeName := by
      simp only [GetServiceResources, ht, hpath]
    exact ⟨hres, by rw [hres]; rfl⟩
  · intro t p ht hpath hlen
    have hnot : ¬ 1 < p.length := by omega
    have hres : GetServiceResources parseServices members g serviceName =
        RouteResult.invalidPath p := by
      simp only [GetServiceResources, ht, hpath, hnot, if_false]
    exact ⟨hres, by rw [hres]; rfl⟩

/-- Witness for C3: the three failures at concrete inputs — an unknown
name over an empty membership, a service on a node unreachable in the
empty graph, and a service hosted on the observer node itself. -/
theorem GetServiceResources_error_codes_witness :
    ((∀ svc ∈ buildServices (fun _ => none) ([] : List Member), svc.name ≠ "api") ∧
      GetServiceResources (fun _ => none) [] [] "api" = RouteResult.notFound "api") ∧
    (findService (buildServices (fun _ => none) [legacyMember]) "api" =
        some legacyService ∧
      Graph.FindPath [] "heimdall" legacyService.nodeName = none ∧
      GetServiceResources (fun _ => none) [legacyMember] [] "api" =
        RouteResult.unavailable "n1") ∧
    (findService (buildServices (fun _ => none) [heimdallMember]) "obs" =
        some heimdallService ∧
      Graph.FindPath [] "heimdall" heimdallService.nodeName = some ["heimdall"] ∧
      GetServiceResources (fun _ => none) [heimdallMember] [] "obs" =
        RouteResult.invalidPath ["heimdall"]) :=
  ⟨⟨by decide,
    ((GetServiceResources_error_codes (fun _ => none) [] [] "api").1
      (by decide)).1⟩,
   ⟨by decide, by decide,
    ((GetServiceResources_error_codes (fun _ => none) [legacyMember] [] "api").2.1
      legacyService (by decide) (by decide)).1⟩,
   ⟨by decide, by decide,
    ((GetServiceResources_error_codes (fun _ => none) [heimdallMember] [] "obs").2.2
      heimdallService ["heimdall"] (by decide) (by decide) (by decide)).1⟩⟩

/-- C10: the entry address is taken from the first service of the
topology's service list hosted on the entry node (the path's second
element); if that first service's address is the empty string the call
fails with `Internal` — regardless of any other service hosted on the
same node with a non-empty address. -/
theorem entry_address_from_first_service
    (parseServices : String → Option (List ServiceInfo)) (members : List Member)
    (g : Graph) (serviceName : String) (t : Service) (p : List String) (svc : Service)
    (ht : findService (buildServices parseServices members) serviceName = some t)
    (hp : Graph.FindPath g "heimdall" t.nodeName = some p)
    (hlen : 1 < p.length)
    (hsvc : findEntryService (buildServices parseServices members) (p.getD 1 "") =
        some svc)
    (haddr : svc.address = "") :
    GetServiceResources parseServices members g serviceName =
        RouteResult.noAddress (p.getD 1 "") ∧
    (GetServiceResources parseServices members g serviceName).code =
        some ErrCode.internal := by
  have hres : GetServiceResources parseServices members g serviceName =
      RouteResult.noAddress (p.getD 1 "") := by
    simp only [GetServiceResources, ht, hp, hlen, if_true, hsvc]
    simp [haddr]
  exact ⟨hres, by rw [hres]; rfl⟩

/-- Witness for C10: the structured member hosts `svc1` (empty address)
before `svc2` (non-empty address) on node `"n1"`; routing to `svc2`
resolves the entry address from `svc1` and fails with `Internal`, even
though `svc2` itself is hosted on `"n1"` with a non-empty address. -/
theorem entry_address_from_first_service_witness :
    (findService (buildServices parseJ [structuredMember]) "svc2" =
        some { name := "svc2", type := "db", address := "10.0.0.2:2",
               nodeName := "n1", upstreams := [], status := ServiceStatus.healthy,
               tags := [("services", "J")] } ∧
      Graph.FindPath linkGraph "heimdall" "n1" = some ["heimdall", "n1"] ∧
      findEntryService (buildServices parseJ [structuredMember]) "n1" =
        some { name := "svc1", type := "db", address := "", nodeName := "n1",
               upstreams := [], status := ServiceStatus.healthy,
               tags := [("services", "J")] } ∧
      (∃ other ∈ buildServices parseJ [structuredMember],
        other.nodeName = "n1" ∧ other.address ≠ "")) ∧
    GetServiceResources parseJ [structuredMember] linkGraph "svc2" =
      RouteResult.noAddress "n1" :=
  ⟨⟨by decide, by decide, by decide,
    ⟨{ name := "svc2", type := "db", address := "10.0.0.2:2", nodeName := "n1",
       upstreams := [], status := ServiceStatus.healthy,
       tags := [("services", "J")] }, by decide, by decide, by decide⟩⟩,
   (entry_address_from_first_service parseJ [structuredMember] linkGraph "svc2"
      { name := "svc2", type := "db", address := "10.0.0.2:2", nodeName := "n1",
        upstreams := [], status := ServiceStatus.healthy,
        tags := [("services", "J")] }
      ["heimdall", "n1"]
      { name := "svc1", type := "db", address := "", nodeName := "n1",
        upstreams := [], status := ServiceStatus.healthy,
        tags := [("services", "J")] }
      (by decide) (by decide) (by decide) (by decide) (by decide)).1⟩

/-- C2: for distinct node names `a` and `b`, `FindPath` returns a path
that starts at `a`, ends at `b`, follows recorded edges at every step,
and whose length is minimal among all recorded paths from `a` to `b`
(hence minimal in edge count); and it returns the explicit no-path result
`none` — not an error, the return type has no error case — if and only if
no sequence of recorded edges connects `a` to `b`. -/
theorem FindPath_shortest (g : Graph) (a b : String) (hab : a ≠ b) :
    (∀ p, Graph.FindPath g a b = some p →
      ValidFromTo g a b p ∧ ∀ q, ValidFromTo g a b q → p.length ≤ q.length) ∧
    (Graph.FindPath g a b = none ↔ ¬ ∃ q, ValidFromTo g a b q) := by
  have hInv : BfsInv g a b [[a]] [a] := by
    refine ⟨List.mem_cons_self a [], fun hc => hab (List.mem_singleton.mp hc).symm,
      ?_, by simp, ?_, ?_, ?_⟩
    · intro p hp
      obtain rfl := List.mem_singleton.mp hp
      exact ⟨List.cons_ne_nil a [], rfl, List.chain'_singleton a, fun x hx => hx⟩
    · intro p hp q hq
      obtain rfl := List.mem_singleton.mp hp
      obtain rfl := List.mem_singleton.mp hq
      simp
    · intro x hx
      obtain rfl := List.mem_singleton.mp hx
      exact Or.inl ⟨[x], List.mem_singleton.mpr rfl, by simp⟩
    · intro Q hQ
      refine ⟨[a], List.mem_singleton.mpr rfl, Q, ?_, ?_⟩
      · have hga : ([a] : List String).getLastD "" = a := by simp
        rw [hga]
        exact hQ
      · simp only [List.length_cons, List.length_nil]
        omega
  have hFuel : ([[a]] : List (List String)).length + 1 + meas g [a] ≤
      (graphNodes g).length + 2 := by
    have hm := meas_le_length g [a]
    simp only [List.length_cons, List.length_nil]
    omega
  obtain ⟨hne, hnone, hsome⟩ :=
    bfsLoop_spec g a b ((graphNodes g).length + 2) [[a]] [a] hInv hFuel
  have hFP : Graph.FindPath g a b =
      (bfsLoop g b ((graphNodes g).length + 2) [[a]] [a]).getD none := by
    simp only [Graph.FindPath, if_neg hab]
  constructor
  · intro p hp
    rw [hFP] at hp
    cases hres : bfsLoop g b ((graphNodes g).length + 2) [[a]] [a] with
    | none => exact absurd hres hne
    | some r =>
        cases r with
        | none =>
            rw [hres] at hp
            simp at hp
        | some p2 =>
            rw [hres] at hp
            simp only [Option.getD_some, Option.some.injEq] at hp
            subst hp
            exact hsome p2 hres
  · constructor
    · intro h hq
      obtain ⟨q, hqv⟩ := hq
      rw [hFP] at h
      cases hres : bfsLoop g b ((graphNodes g).length + 2) [[a]] [a] with
      | none => exact hne hres
      | some r =>
          cases r with
          | none => exact hnone hres q hqv
          | some p2 =>
              rw [hres] at h
              simp at h
    · intro h
      rw [hFP]
      cases hres : bfsLoop g b ((graphNodes g).length + 2) [[a]] [a] with
      | none => exact absurd hres hne
      | some r =>
          cases r with
          | none => simp
          | some p2 => exact absurd ⟨p2, (hsome p2 hres).1⟩ h

/-- Witness for C2 at the concrete one-edge graph recording only
`x -> y`. -/
theorem FindPath_shortest_witness :
    ("x" : String) ≠ "y" ∧
    ((∀ p, Graph.FindPath [("x", ["y"])] "x" "y" = some p →
      ValidFromTo [("x", ["y"])] "x" "y" p ∧
      ∀ q, ValidFromTo [("x", ["y"])] "x" "y" q → p.length ≤ q.length) ∧
    (Graph.FindPath [("x", ["y"])] "x" "y" = none ↔
      ¬ ∃ q, ValidFromTo [("x", ["y"])] "x" "y" q)) :=
  ⟨by decide, FindPath_shortest [("x", ["y"])] "x" "y" (by decide)⟩

end Heimdall
